import Mathlib

/-!
# Verification of `scripts/fix_yuepin.py`

A shallow embedding of the one-file text-normalisation utility.  Python
strings are modelled as `List Char` (one element per code point).  The
`unicodedata` NFD/NFC machinery is modelled by a finite canonical-decomposition
table covering the precomposed Latin letters with a single combining diacritic
that the romanisation data uses (macron, acute, grave, circumflex, tilde,
diaeresis, caron over a e i o u and the nasal/semivowel letters m n y);
characters outside the table are atoms with no decomposition, and the
combining-mark predicate is the Combining Diacritical Marks block
U+0300..U+036F (Unicode category Mn on that block).
-/

set_option autoImplicit false

namespace FY

/-- Python strings, one element per code point. -/
abbrev Txt := List Char

/-! ## Unicode model -/

/-- Canonical decompositions: `(precomposed, base, combining mark)`. -/
def decompTable : List (Char × Char × Char) := [
  ('á', 'a', '\u0301'), ('é', 'e', '\u0301'), ('í', 'i', '\u0301'),
  ('ó', 'o', '\u0301'), ('ú', 'u', '\u0301'),
  ('à', 'a', '\u0300'), ('è', 'e', '\u0300'), ('ì', 'i', '\u0300'),
  ('ò', 'o', '\u0300'), ('ù', 'u', '\u0300'),
  ('â', 'a', '\u0302'), ('ê', 'e', '\u0302'), ('î', 'i', '\u0302'),
  ('ô', 'o', '\u0302'), ('û', 'u', '\u0302'),
  ('ã', 'a', '\u0303'), ('ẽ', 'e', '\u0303'), ('ĩ', 'i', '\u0303'),
  ('õ', 'o', '\u0303'), ('ũ', 'u', '\u0303'),
  ('ä', 'a', '\u0308'), ('ë', 'e', '\u0308'), ('ï', 'i', '\u0308'),
  ('ö', 'o', '\u0308'), ('ü', 'u', '\u0308'),
  ('ā', 'a', '\u0304'), ('ē', 'e', '\u0304'), ('ī', 'i', '\u0304'),
  ('ō', 'o', '\u0304'), ('ū', 'u', '\u0304'),
  ('ǎ', 'a', '\u030C'), ('ě', 'e', '\u030C'), ('ǐ', 'i', '\u030C'),
  ('ǒ', 'o', '\u030C'), ('ǔ', 'u', '\u030C'),
  ('ḿ', 'm', '\u0301'), ('ń', 'n', '\u0301'), ('ǹ', 'n', '\u0300'),
  ('ñ', 'n', '\u0303'),
  ('ý', 'y', '\u0301'), ('ỳ', 'y', '\u0300')]

/-- Combining-mark predicate (`unicodedata.category(c).startswith('M')`,
restricted to the Combining Diacritical Marks block). -/
def isMark (c : Char) : Bool := 0x300 ≤ c.toNat && c.toNat ≤ 0x36F

/-- NFD of a single character. -/
def nfdChar (c : Char) : Txt :=
  match decompTable.find? (fun p => p.1 == c) with
  | some p => [p.2.1, p.2.2]
  | none => [c]

/-- NFD of a string (`unicodedata.normalize('NFD', s)`). -/
def nfdTxt (s : Txt) : Txt := (s.map nfdChar).flatten

/-- Canonical composition of a base with a combining mark. -/
def composePair (b m : Char) : Option Char :=
  (decompTable.find? (fun p => p.2.1 == b && p.2.2 == m)).map (fun p => p.1)

/-- Greedy canonical composition of a decomposed sequence. -/
def nfcComposeAux : Char → Txt → Txt
  | st, [] => [st]
  | st, c :: t =>
    match composePair st c with
    | some c2 => nfcComposeAux c2 t
    | none => st :: nfcComposeAux c t

/-- Canonical composition pass over a decomposed sequence. -/
def nfcCompose : Txt → Txt
  | [] => []
  | c :: t => nfcComposeAux c t

/-- NFC of a string (`unicodedata.normalize('NFC', s)`): decompose, recompose. -/
def nfcTxt (s : Txt) : Txt := nfcCompose (nfdTxt s)

/-! ## `_decompose_char`, vowel and source search -/

/-- Embeds `_decompose_char`: `(base, combining_marks)` of the NFD of one character. -/
def decomposeChar (ch : Char) : Txt × Txt :=
  let d := nfdChar ch
  (d.filter (fun c => !(isMark c)), d.filter isMark)

/-- Embeds `VOWEL_BASES = set('aeiouAEIOU')`. -/
def VOWEL_BASES : Txt := ['a', 'e', 'i', 'o', 'u', 'A', 'E', 'I', 'O', 'U']

/-- Embeds `find_first_vowel_index`: first index whose NFD base starts with a vowel. -/
def find_first_vowel_index : Txt → Option Nat
  | [] => none
  | ch :: t =>
    match (decomposeChar ch).1 with
    | [] => (find_first_vowel_index t).map (· + 1)
    | b :: _ =>
      if VOWEL_BASES.contains b then some 0
      else (find_first_vowel_index t).map (· + 1)

/-- First index of the marks list that carries a combining mark. -/
def findSource : List Txt → Option Nat
  | [] => none
  | m :: rest => if m.isEmpty then (findSource rest).map (· + 1) else some 0

/-- Embeds `base or ch`: the base kept in the `bases` list (the raw character when the
NFD base is empty, i.e. for a free-standing combining mark). -/
def baseOf (ch : Char) : Txt :=
  let b := (decomposeChar ch).1
  if b.isEmpty then [ch] else b

/-- Marks carried by one character. -/
def marksOf (ch : Char) : Txt := (decomposeChar ch).2

/-- The per-character rebuild loop of `move_diacritic_to_first_vowel`
(`i` is the index of the head of the list, as in `enumerate(bases)`). -/
def rebuildAux (s t : Nat) (moving : Txt) : Nat → List Txt → List Txt
  | _, [] => []
  | i, b :: bs =>
    (if i = s then nfcTxt b
     else if i = t then nfcTxt (nfdTxt b ++ moving)
     else nfcTxt b) :: rebuildAux s t moving (i + 1) bs

/-- Embeds `move_diacritic_to_first_vowel`. -/
def move_diacritic_to_first_vowel (token : Txt) : Txt × Bool :=
  if token.isEmpty then (token, false)
  else
    let bases := token.map baseOf
    let marksList := token.map marksOf
    match findSource marksList with
    | none => (token, false)
    | some source =>
      match find_first_vowel_index token with
      | none => (token, false)
      | some target =>
        if source = target then (token, false)
        else if !(marksList.getD target []).isEmpty then (token, false)
        else
          let moving := marksList.getD source []
          ((rebuildAux source target moving 0 bases).flatten, true)

/-! ## `process_value` -/

/-- Embeds `value.split(',')`. -/
def splitComma : Txt → List Txt
  | [] => [[]]
  | c :: t =>
    if c = ',' then [] :: splitComma t
    else
      match splitComma t with
      | [] => [[c]]
      | l :: ls => (c :: l) :: ls

/-- Embeds `','.join(parts)`. -/
def joinComma : List Txt → Txt
  | [] => []
  | [l] => l
  | l :: ls => l ++ ',' :: joinComma ls

/-- Embeds `process_value`. -/
def process_value (value : Txt) : Txt × Bool :=
  let parts := splitComma value
  if parts.length < 2 then (value, false)
  else
    let token := parts.getD 1 []
    let r := move_diacritic_to_first_vowel token
    if r.2 then (joinComma (parts.set 1 r.1), true) else (value, false)

/-! ## The record-line pattern

The per-line regular expression of `main` is
`(\s*"[^\"]+"\s*:\s*)"(.*)"(,?)$`.  On the linebreak-free lines produced by
`splitlines` the greedy backtracking match is deterministic: maximal
whitespace runs (each is followed by a non-whitespace literal), a maximal
nonempty quote-free run for the key, and for the value the longest `(.*)`
whose remainder still matches `"(,?)$` — i.e. the line must end in `"` (the
preferred, longer match) or in `",`. -/

/-- Python `\s` (`re.UNICODE` whitespace). -/
def isSpace (c : Char) : Bool :=
  c = ' ' || c = '\t' || c = '\n' || c = '\r' ||
  c.toNat = 0x0b || c.toNat = 0x0c ||
  (0x1c ≤ c.toNat && c.toNat ≤ 0x1f) || c.toNat = 0x85 || c.toNat = 0xa0 ||
  c.toNat = 0x1680 || (0x2000 ≤ c.toNat && c.toNat ≤ 0x200a) ||
  c.toNat = 0x2028 || c.toNat = 0x2029 || c.toNat = 0x202f ||
  c.toNat = 0x205f || c.toNat = 0x3000

/-- Match of the trailing `"(,?)$` of the line pattern against the text after
the value's opening quote: the line tail is `inner ++ "\"" ++ comma` with
`comma` empty or a single comma, preferring the longer `inner`. -/
def matchTail (r : Txt) : Option (Txt × Txt) :=
  match r.reverse with
  | [] => none
  | [c] => if c = '"' then some ([], []) else none
  | c :: d :: rev2 =>
    if c = '"' then some ((d :: rev2).reverse, [])
    else if c = ',' ∧ d = '"' then some (rev2.reverse, [','])
    else none

/-- Expect one literal character at the head, returning the tail. -/
def expectChar (c : Char) : Txt → Option Txt
  | [] => none
  | d :: t => if d = c then some t else none

/-- The whole line pattern: returns `(keypart, inner, comma)` — group 1
(whitespace, quoted key, colon, whitespace), group 2 (the value between the
quotes) and group 3 (the optional trailing comma). -/
def matchLine (line : Txt) : Option (Txt × Txt × Txt) :=
  let ws1 := line.takeWhile isSpace
  match expectChar '"' (line.dropWhile isSpace) with
  | none => none
  | some r2 =>
    let key := r2.takeWhile (fun c => !(c == '"'))
    if key.isEmpty then none
    else
      match expectChar '"' (r2.dropWhile (fun c => !(c == '"'))) with
      | none => none
      | some r3 =>
        let ws2 := r3.takeWhile isSpace
        match expectChar ':' (r3.dropWhile isSpace) with
        | none => none
        | some r4 =>
          let ws3 := r4.takeWhile isSpace
          match expectChar '"' (r4.dropWhile isSpace) with
          | none => none
          | some r5 =>
            match matchTail r5 with
            | some (inner, comma) =>
              some (ws1 ++ '"' :: key ++ '"' :: ws2 ++ ':' :: ws3,
                    inner, comma)
            | none => none

/-- One iteration of the per-line loop of `main`: an unmatched or unchanged
line is kept verbatim, a changed one is rebuilt from the groups. -/
def processLine (line : Txt) : Txt × Bool :=
  match matchLine line with
  | none => (line, false)
  | some (kp, inner, comma) =>
    let r := process_value inner
    if r.2 then (kp ++ '"' :: r.1 ++ '"' :: comma, true) else (line, false)

/-! ## `split_js_object` -/

/-- Consume a literal prefix, returning the remainder. -/
def stripLit : Txt → Txt → Option Txt
  | [], s => some s
  | _ :: _, [] => none
  | c :: cs, d :: ds => if c = d then stripLit cs ds else none

/-- Match the anchor pattern `var\s+yuepin\s*=\s*\{` at the head of `s`,
returning `(matched, rest)` with `s = matched ++ rest`.  The greedy
whitespace runs are deterministic because each is followed by a
non-whitespace literal. -/
def matchAnchorAt (s : Txt) : Option (Txt × Txt) :=
  match stripLit ['v', 'a', 'r'] s with
  | none => none
  | some r1 =>
    let w1 := r1.takeWhile isSpace
    if w1.isEmpty then none
    else
      match stripLit ['y', 'u', 'e', 'p', 'i', 'n'] (r1.dropWhile isSpace) with
      | none => none
      | some r2 =>
        let w2 := r2.takeWhile isSpace
        match expectChar '=' (r2.dropWhile isSpace) with
        | none => none
        | some r3 =>
          let w3 := r3.takeWhile isSpace
          match expectChar '{' (r3.dropWhile isSpace) with
          | none => none
          | some r4 =>
            some (['v', 'a', 'r'] ++ w1 ++ ['y', 'u', 'e', 'p', 'i', 'n'] ++
                  w2 ++ '=' :: w3 ++ ['{'], r4)

/-- Leftmost anchor match (`re.search`): `(text_before, matched, rest)`. -/
def findAnchorAux : Txt → Txt → Option (Txt × Txt × Txt)
  | revPre, [] =>
    (matchAnchorAt []).map (fun mr => (revPre.reverse, mr.1, mr.2))
  | revPre, c :: t =>
    match matchAnchorAt (c :: t) with
    | some (m, r) => some (revPre.reverse, m, r)
    | none => findAnchorAux (c :: revPre) t

/-- Leftmost anchor match in a document. -/
def findAnchorSplit (text : Txt) : Option (Txt × Txt × Txt) :=
  findAnchorAux [] text

/-- The brace counter of `split_js_object`: starting at depth `d` just after
the anchor's `{`, consume up to and including the matching `}`; `none` when
the depth never returns to zero. -/
def scanToClose : Txt → Nat → Option (Txt × Txt)
  | [], _ => none
  | c :: t, d =>
    if c = '{' then (scanToClose t (d + 1)).map (fun p => (c :: p.1, p.2))
    else if c = '}' then
      if d = 1 then some ([c], t)
      else (scanToClose t (d - 1)).map (fun p => (c :: p.1, p.2))
    else (scanToClose t d).map (fun p => (c :: p.1, p.2))

/-- The two fatal errors of the script. -/
inductive SplitErr where
  | anchorNotFound
  | unbalanced
deriving DecidableEq, Repr

instance instDecEqExcept {ε α : Type} [DecidableEq ε] [DecidableEq α] :
    DecidableEq (Except ε α) := fun a b =>
  match a, b with
  | .error e, .error f =>
    if h : e = f then .isTrue (h ▸ rfl)
    else .isFalse (fun hh => h (Except.error.inj hh))
  | .ok x, .ok y =>
    if h : x = y then .isTrue (h ▸ rfl)
    else .isFalse (fun hh => h (Except.ok.inj hh))
  | .error _, .ok _ => .isFalse Except.noConfusion
  | .ok _, .error _ => .isFalse Except.noConfusion

/-- Embeds `split_js_object`: `(prefix, object_text, suffix)` where `object_text`
runs from the start of the anchor match through the matching `}`. -/
def split_js_object (text : Txt) : Except SplitErr (Txt × Txt × Txt) :=
  match findAnchorSplit text with
  | none => .error .anchorNotFound
  | some (pre, anchor, rest) =>
    match scanToClose rest 1 with
    | none => .error .unbalanced
    | some (body, suffix) => .ok (pre, anchor ++ body, suffix)

/-! ## `splitlines`, join and the driver -/

/-- The line-boundary characters of `str.splitlines`. -/
def isLineBreak (c : Char) : Bool :=
  c = '\n' || c = '\r' || c.toNat = 0x0b || c.toNat = 0x0c ||
  c.toNat = 0x1c || c.toNat = 0x1d || c.toNat = 0x1e || c.toNat = 0x85 ||
  c.toNat = 0x2028 || c.toNat = 0x2029

/-- Worker for `splitlines`: `cur` is the reversed current line; a `\r`
directly followed by `\n` consumes both as one boundary. -/
def splitlinesAux : Txt → Txt → List Txt
  | cur, [] => if cur.isEmpty then [] else [cur.reverse]
  | cur, [c] =>
    if isLineBreak c then [cur.reverse] else [(c :: cur).reverse]
  | cur, c :: c2 :: t =>
    if isLineBreak c then
      if c = '\r' ∧ c2 = '\n' then cur.reverse :: splitlinesAux [] t
      else cur.reverse :: splitlinesAux [] (c2 :: t)
    else splitlinesAux (c :: cur) (c2 :: t)

/-- Embeds `str.splitlines` (a trailing terminator yields no empty final line). -/
def splitlines (s : Txt) : List Txt := splitlinesAux [] s

/-- Embeds `'\n'.join(lines)`. -/
def joinNL : List Txt → Txt
  | [] => []
  | [l] => l
  | l :: ls => l ++ '\n' :: joinNL ls

/-- The two success messages printed by `main`. -/
inductive Msg where
  | noChanges
  | wouldChange (n : Nat) (applied : Bool)
deriving DecidableEq, Repr

/-- Outcome of one run: a fatal error, or a message plus the text written
back to the file (`none` when nothing is written). -/
inductive RunResult where
  | fatal (e : SplitErr)
  | done (msg : Msg) (written : Option Txt)
deriving DecidableEq, Repr

/-- What a run wrote to the file (`none` for a fatal run). -/
def writtenOf : RunResult → Option Txt
  | .fatal _ => none
  | .done _ w => w

/-- The number of record lines of an object body that the loop counts as
changed. -/
def changedCount (obj : Txt) : Nat :=
  (((splitlines obj).map processLine).filter (fun r => r.2)).length

/-- Embeds `main`: extract the object, process its lines, count the changes, and
write the reassembled document only under `--fix` with a nonzero count. -/
def run (text : Txt) (fix : Bool) : RunResult :=
  match split_js_object text with
  | .error e => .fatal e
  | .ok (pre, obj, suf) =>
    let results := (splitlines obj).map processLine
    let newText := pre ++ joinNL (results.map (fun r => r.1)) ++ suf
    let count := (results.filter (fun r => r.2)).length
    if count = 0 then .done .noChanges none
    else .done (.wouldChange count fix) (if fix then some newText else none)

/-! ## Proof-side definitions -/

/-- The boolean test the vowel search applies to one character: the NFD base
is nonempty and starts with a basic Latin vowel. -/
def vowelB (c : Char) : Bool :=
  match (decomposeChar c).1 with
  | [] => false
  | b :: _ => VOWEL_BASES.contains b

/-- Decidable side condition for the amended idempotence claim: whenever the
transform actually moves marks, the single moved mark canonically recomposes
with the first vowel's base letter into one precomposed character. -/
def moveComposes (token : Txt) : Bool :=
  match findSource (token.map marksOf), find_first_vowel_index token with
  | some sIdx, some tIdx =>
    if sIdx = tIdx then true
    else if !((token.map marksOf).getD tIdx []).isEmpty then true
    else
      (composePair (((token.map baseOf).getD tIdx []).getD 0 ' ')
        (((token.map marksOf).getD sIdx []).getD 0 ' ')).isSome
  | _, _ => true

/-- Modelled from the spec: a line is of record shape when, after optional
leading whitespace, it is exactly a quoted key, a colon, a quoted value and
an optional trailing comma, with nothing else on the line. -/
def SpecLineShape (line : Txt) : Prop :=
  ∃ ws1 key ws2 ws3 v comma : Txt,
    (∀ c ∈ ws1, isSpace c = true) ∧ (∀ c ∈ ws2, isSpace c = true) ∧
    (∀ c ∈ ws3, isSpace c = true) ∧ key ≠ [] ∧ (∀ c ∈ key, c ≠ '"') ∧
    (comma = [] ∨ comma = [',']) ∧
    line = ws1 ++ '"' :: key ++ '"' :: ws2 ++ ':' :: ws3 ++ '"' :: v ++
      '"' :: comma

/-! ## Facts about the Unicode model -/

theorem tableFacts : ∀ p ∈ decompTable,
    isMark p.1 = false ∧ isMark p.2.1 = false ∧ isMark p.2.2 = true ∧
    nfdChar p.2.1 = [p.2.1] ∧ nfdChar p.2.2 = [p.2.2] ∧
    composePair p.2.1 p.2.2 = some p.1 ∧ nfdChar p.1 = [p.2.1, p.2.2] := by
  decide

/-- Every character of the model falls in one of three classes: an atom with
no marks, a free-standing combining mark, or a precomposed letter of the
table. -/
theorem char_class (c : Char) :
    (marksOf c = [] ∧ baseOf c = [c] ∧ (decomposeChar c).1 = [c] ∧
      nfdChar c = [c] ∧ isMark c = false) ∨
    (marksOf c = [c] ∧ baseOf c = [c] ∧ (decomposeChar c).1 = [] ∧
      nfdChar c = [c] ∧ isMark c = true) ∨
    (∃ b m, marksOf c = [m] ∧ baseOf c = [b] ∧ (decomposeChar c).1 = [b] ∧
      nfdChar c = [b, m] ∧ isMark c = false ∧ isMark b = false ∧
      isMark m = true ∧ nfdChar b = [b] ∧ nfdChar m = [m] ∧
      composePair b m = some c) := by
  cases hf : decompTable.find? (fun p => p.1 == c) with
  | none =>
    have hnfd : nfdChar c = [c] := by unfold nfdChar; rw [hf]
    by_cases hm : isMark c = true
    · right; left
      refine ⟨?_, ?_, ?_, hnfd, hm⟩ <;>
        simp [marksOf, baseOf, decomposeChar, hnfd, hm]
    · left
      have hm' : isMark c = false := by revert hm; cases isMark c <;> simp
      refine ⟨?_, ?_, ?_, hnfd, hm'⟩ <;>
        simp [marksOf, baseOf, decomposeChar, hnfd, hm']
  | some p =>
    have hmem := List.mem_of_find?_eq_some hf
    have hpc : p.1 = c := by simpa using List.find?_some hf
    obtain ⟨f1, f2, f3, _, f5, f6, _⟩ := tableFacts p hmem
    have hnfd : nfdChar c = [p.2.1, p.2.2] := by unfold nfdChar; rw [hf]
    right; right
    refine ⟨p.2.1, p.2.2, ?_, ?_, ?_, hnfd, hpc ▸ f1, f2, f3, ?_, f5, hpc ▸ f6⟩
    · simp [marksOf, decomposeChar, hnfd, f2, f3]
    · simp [baseOf, decomposeChar, hnfd, f2, f3]
    · simp [decomposeChar, hnfd, f2, f3]
    · exact (tableFacts p hmem).2.2.2.1

theorem nfdTxt_cons (c : Char) (s : Txt) :
    nfdTxt (c :: s) = nfdChar c ++ nfdTxt s := by
  simp [nfdTxt]

theorem nfdTxt_append (a b : Txt) : nfdTxt (a ++ b) = nfdTxt a ++ nfdTxt b := by
  simp [nfdTxt]

theorem nfdTxt_fixed {s : Txt} (h : ∀ x ∈ s, nfdChar x = [x]) : nfdTxt s = s := by
  induction s with
  | nil => rfl
  | cons c t ih =>
    rw [nfdTxt_cons, h c (by simp), ih (fun x hx => h x (by simp [hx]))]
    rfl

theorem nfcTxt_single {x : Char} (h : nfdChar x = [x]) : nfcTxt [x] = [x] := by
  simp [nfcTxt, nfdTxt, h, nfcCompose, nfcComposeAux]

theorem nfcTxt_nil : nfcTxt [] = [] := rfl

/-- What a successful canonical composition tells us about the composed
character. -/
theorem composePair_class {b m c : Char} (h : composePair b m = some c) :
    nfdChar c = [b, m] ∧ isMark c = false ∧ marksOf c = [m] ∧
    (decomposeChar c).1 = [b] := by
  unfold composePair at h
  cases hf : decompTable.find? (fun p => p.2.1 == b && p.2.2 == m) with
  | none => rw [hf] at h; exact absurd h (by simp)
  | some p =>
    rw [hf] at h
    have hmem := List.mem_of_find?_eq_some hf
    have hbm : p.2.1 = b ∧ p.2.2 = m := by simpa using List.find?_some hf
    have hc : p.1 = c := by simpa using h
    obtain ⟨f1, f2, f3, _, _, _, f7⟩ := tableFacts p hmem
    have hnfd : nfdChar c = [b, m] := by rw [← hc, f7, hbm.1, hbm.2]
    refine ⟨hnfd, hc ▸ f1, ?_, ?_⟩
    · simp [marksOf, decomposeChar, hnfd, hbm.1 ▸ f2, hbm.2 ▸ f3]
    · simp [decomposeChar, hnfd, hbm.1 ▸ f2, hbm.2 ▸ f3]

theorem nfcTxt_bm_some {b m c : Char} (hb : nfdChar b = [b])
    (hm : nfdChar m = [m]) (h : composePair b m = some c) :
    nfcTxt [b, m] = [c] := by
  simp [nfcTxt, nfdTxt, hb, hm, nfcCompose, nfcComposeAux, h]

theorem nfcTxt_bm_none {b m : Char} (hb : nfdChar b = [b])
    (hm : nfdChar m = [m]) (h : composePair b m = none) :
    nfcTxt [b, m] = [b, m] := by
  simp [nfcTxt, nfdTxt, hb, hm, nfcCompose, nfcComposeAux, h]

/-! ## Branch lemmas for `move_diacritic_to_first_vowel` -/

theorem move_noop_nosource {token : Txt}
    (h : findSource (token.map marksOf) = none) :
    move_diacritic_to_first_vowel token = (token, false) := by
  cases token with
  | nil => rfl
  | cons c t =>
    simp only [List.map_cons] at h
    simp [move_diacritic_to_first_vowel, h]

theorem move_noop_novowel {token : Txt} {sIdx : Nat}
    (hs : findSource (token.map marksOf) = some sIdx)
    (hv : find_first_vowel_index token = none) :
    move_diacritic_to_first_vowel token = (token, false) := by
  cases token with
  | nil => simp [findSource] at hs
  | cons c t =>
    simp only [List.map_cons] at hs
    simp [move_diacritic_to_first_vowel, hs, hv]

theorem move_noop_same {token : Txt} {sIdx tIdx : Nat}
    (hs : findSource (token.map marksOf) = some sIdx)
    (hv : find_first_vowel_index token = some tIdx) (h : sIdx = tIdx) :
    move_diacritic_to_first_vowel token = (token, false) := by
  subst h
  cases token with
  | nil => simp [findSource] at hs
  | cons c t =>
    simp only [List.map_cons] at hs
    simp [move_diacritic_to_first_vowel, hs, hv]

theorem move_noop_marked {token : Txt} {sIdx tIdx : Nat}
    (hs : findSource (token.map marksOf) = some sIdx)
    (hv : find_first_vowel_index token = some tIdx)
    (h : (token.map marksOf).getD tIdx [] ≠ []) :
    move_diacritic_to_first_vowel token = (token, false) := by
  cases token with
  | nil => simp [findSource] at hs
  | cons c t =>
    by_cases hst : sIdx = tIdx
    · exact move_noop_same hs hv hst
    · simp only [List.map_cons] at hs h
      simp only [List.getD_eq_getElem?_getD] at h
      simp [move_diacritic_to_first_vowel, hs, hv, hst, h]

theorem move_changed {token : Txt} {sIdx tIdx : Nat}
    (hs : findSource (token.map marksOf) = some sIdx)
    (hv : find_first_vowel_index token = some tIdx) (hst : sIdx ≠ tIdx)
    (hmt : (token.map marksOf).getD tIdx [] = []) :
    move_diacritic_to_first_vowel token =
      ((rebuildAux sIdx tIdx ((token.map marksOf).getD sIdx []) 0
        (token.map baseOf)).flatten, true) := by
  cases token with
  | nil => simp [findSource] at hs
  | cons c t =>
    simp only [List.map_cons] at hs hmt ⊢
    simp only [List.getD_eq_getElem?_getD] at hmt ⊢
    simp [move_diacritic_to_first_vowel, hs, hv, hst, hmt]

/-! ## Index lemmas for the two searches -/

theorem getD_map_of_lt {α β : Type} (f : α → β) {l : List α} {j : Nat}
    (h : j < l.length) (d : α) (d' : β) :
    (l.map f).getD j d' = f (l.getD j d) := by
  induction l generalizing j with
  | nil => simp at h
  | cons a t ih =>
    cases j with
    | zero => simp
    | succ n =>
      simp only [List.map_cons, List.getD_cons_succ]
      exact ih (by simpa using Nat.lt_of_succ_lt_succ h)

theorem findSource_cons (m : Txt) (rest : List Txt) :
    findSource (m :: rest) =
      if m.isEmpty then (findSource rest).map (· + 1) else some 0 := rfl

theorem findSource_spec : ∀ {l : List Txt} {sIdx : Nat},
    findSource l = some sIdx →
    sIdx < l.length ∧ l.getD sIdx [] ≠ [] ∧ ∀ i, i < sIdx → l.getD i [] = [] := by
  intro l
  induction l with
  | nil => intro sIdx h; simp [findSource] at h
  | cons m rest ih =>
    intro sIdx h
    rw [findSource_cons] at h
    by_cases hm : m.isEmpty
    · rw [if_pos hm] at h
      obtain ⟨s', hs', rfl⟩ := Option.map_eq_some'.mp h
      obtain ⟨h1, h2, h3⟩ := ih hs'
      refine ⟨by simpa using Nat.succ_lt_succ h1, by simpa using h2, ?_⟩
      intro i hi
      cases i with
      | zero => simpa using List.isEmpty_iff.mp hm
      | succ n =>
        simp only [List.getD_cons_succ]
        exact h3 n (Nat.lt_of_succ_lt_succ hi)
    · rw [if_neg hm] at h
      obtain rfl : sIdx = 0 := by simpa using h.symm
      refine ⟨by simp, by simpa using (by simpa [List.isEmpty_iff] using hm), ?_⟩
      intro i hi; omega

theorem findSource_isSome : ∀ {l : List Txt} {j : Nat},
    j < l.length → l.getD j [] ≠ [] → ∃ s, findSource l = some s := by
  intro l
  induction l with
  | nil => intro j h; simp at h
  | cons m rest ih =>
    intro j hj hne
    by_cases hm : m.isEmpty
    · cases j with
      | zero =>
        exact absurd (by simpa using hne) (by simpa using List.isEmpty_iff.mp hm)
      | succ n =>
        obtain ⟨s, hs⟩ :=
          ih (by simpa using Nat.lt_of_succ_lt_succ hj) (by simpa using hne)
        exact ⟨s + 1, by rw [findSource_cons, if_pos hm, hs]; rfl⟩
    · exact ⟨0, by rw [findSource_cons, if_neg hm]⟩

theorem findVowel_cons (c : Char) (t : Txt) :
    find_first_vowel_index (c :: t) =
      if vowelB c then some 0
      else (find_first_vowel_index t).map (· + 1) := by
  have huf : find_first_vowel_index (c :: t) =
      (match (decomposeChar c).1 with
       | [] => (find_first_vowel_index t).map (· + 1)
       | b :: _ =>
         if VOWEL_BASES.contains b then some 0
         else (find_first_vowel_index t).map (· + 1)) := rfl
  rw [huf]
  cases h : (decomposeChar c).1 with
  | nil => simp [vowelB, h]
  | cons b bs =>
    by_cases hb : VOWEL_BASES.contains b <;> simp [vowelB, h, hb]

theorem findVowel_spec : ∀ {u : Txt} {tIdx : Nat},
    find_first_vowel_index u = some tIdx →
    tIdx < u.length ∧ vowelB (u.getD tIdx ' ') = true ∧
      ∀ i, i < tIdx → vowelB (u.getD i ' ') = false := by
  intro u
  induction u with
  | nil => intro tIdx h; simp [find_first_vowel_index] at h
  | cons c t ih =>
    intro tIdx h
    rw [findVowel_cons] at h
    by_cases hc : vowelB c
    · rw [if_pos hc] at h
      obtain rfl : tIdx = 0 := by simpa using h.symm
      exact ⟨by simp, by simpa using hc, by intro i hi; omega⟩
    · rw [if_neg hc] at h
      obtain ⟨t', ht', rfl⟩ := Option.map_eq_some'.mp h
      obtain ⟨h1, h2, h3⟩ := ih ht'
      refine ⟨by simpa using Nat.succ_lt_succ h1, by simpa using h2, ?_⟩
      intro i hi
      cases i with
      | zero => simpa using (by simpa using hc : vowelB c = false)
      | succ n =>
        simp only [List.getD_cons_succ]
        exact h3 n (Nat.lt_of_succ_lt_succ hi)

theorem findVowel_of : ∀ {u : Txt} {tIdx : Nat}, tIdx < u.length →
    vowelB (u.getD tIdx ' ') = true →
    (∀ i, i < tIdx → vowelB (u.getD i ' ') = false) →
    find_first_vowel_index u = some tIdx := by
  intro u
  induction u with
  | nil => intro tIdx h; simp at h
  | cons c t ih =>
    intro tIdx hlt hv hlo
    cases tIdx with
    | zero =>
      rw [findVowel_cons, if_pos (by simpa using hv)]
    | succ n =>
      have hc : vowelB c = false := by simpa using hlo 0 (Nat.succ_pos n)
      rw [findVowel_cons, if_neg (by simp [hc]),
        ih (by simpa using Nat.lt_of_succ_lt_succ hlt) (by simpa using hv)
          (fun i hi => by simpa using hlo (i + 1) (Nat.succ_lt_succ hi))]
      rfl

/-! ## Derived character lemmas -/

theorem decomp_fixed {b : Char} (hb : nfdChar b = [b]) (hm : isMark b = false) :
    (decomposeChar b).1 = [b] ∧ marksOf b = [] := by
  constructor <;> simp [decomposeChar, marksOf, hb, hm]

theorem baseOf_char (c : Char) :
    ∃ x, baseOf c = [x] ∧ nfdChar x = [x] ∧ vowelB x = vowelB c := by
  rcases char_class c with ⟨_, hb, _, hn, _⟩ | ⟨_, hb, _, hn, _⟩ |
    ⟨b, m, _, hb, hd, _, _, himb, _, hnb, _, _⟩
  · exact ⟨c, hb, hn, rfl⟩
  · exact ⟨c, hb, hn, rfl⟩
  · refine ⟨b, hb, hnb, ?_⟩
    have h1 := (decomp_fixed hnb himb).1
    simp [vowelB, h1, hd]

theorem marksOf_single {c : Char} (h : marksOf c ≠ []) :
    ∃ m, marksOf c = [m] ∧ isMark m = true ∧ nfdChar m = [m] := by
  rcases char_class c with ⟨h0, _⟩ | ⟨h0, _, _, hn, hm⟩ |
    ⟨_, m, h0, _, _, _, _, _, hmm, _, hnm, _⟩
  · exact absurd h0 h
  · exact ⟨c, h0, hm, hn⟩
  · exact ⟨m, h0, hmm, hnm⟩

theorem vowel_base {c : Char} (h : vowelB c = true) :
    ∃ b, (decomposeChar c).1 = [b] ∧ baseOf c = [b] ∧ nfdChar b = [b] ∧
      isMark b = false ∧ VOWEL_BASES.contains b = true := by
  rcases char_class c with ⟨_, hb, hd, hn, hm⟩ | ⟨_, _, hd, _, _⟩ |
    ⟨b, m, _, hb, hd, _, _, himb, _, hnb, _, _⟩
  · exact ⟨c, hd, hb, hn, hm, by simpa [vowelB, hd] using h⟩
  · simp [vowelB, hd] at h
  · exact ⟨b, hd, hb, hnb, himb, by simpa [vowelB, hd] using h⟩

/-- NFD of the recomposition of a (possibly empty) bare base: the base again. -/
theorem nfd_nfc_base {bl : Txt}
    (hb : bl = [] ∨ ∃ x, bl = [x] ∧ nfdChar x = [x]) :
    nfdTxt (nfcTxt bl) = bl := by
  rcases hb with rfl | ⟨x, rfl, hx⟩
  · rfl
  · rw [nfcTxt_single hx]
    simp [nfdTxt, hx]

/-- NFD of the recomposition of a bare base followed by the moved marks:
base and marks are recovered exactly, whether or not a precomposed
character exists. -/
theorem nfd_nfc_base_marks {bl mv : Txt}
    (hb : bl = [] ∨ ∃ x, bl = [x] ∧ nfdChar x = [x])
    (hmv : mv = [] ∨ ∃ m, mv = [m] ∧ nfdChar m = [m]) :
    nfdTxt (nfcTxt (nfdTxt bl ++ mv)) = bl ++ mv := by
  rcases hb with rfl | ⟨x, rfl, hx⟩ <;> rcases hmv with rfl | ⟨m, rfl, hm⟩
  · rfl
  · rw [show nfdTxt ([] : Txt) = [] from rfl, List.nil_append,
      nfcTxt_single hm]
    simp [nfdTxt, hm]
  · rw [show nfdTxt [x] = [x] by simp [nfdTxt, hx], List.append_nil,
      nfcTxt_single hx]
    simp [nfdTxt, hx]
  · rw [show nfdTxt [x] = [x] by simp [nfdTxt, hx],
      show [x] ++ [m] = [x, m] from rfl]
    cases hc : composePair x m with
    | some c =>
      rw [nfcTxt_bm_some hx hm hc]
      have := (composePair_class hc).1
      simp [nfdTxt, this]
    | none =>
      rw [nfcTxt_bm_none hx hm hc]
      simp [nfdTxt, hx, hm]

/-! ## The rebuild loop -/

theorem rebuildAux_length {s t : Nat} {mv : Txt} :
    ∀ (bs : List Txt) (i : Nat), (rebuildAux s t mv i bs).length = bs.length := by
  intro bs
  induction bs with
  | nil => intro i; rfl
  | cons b bs ih => intro i; simp [rebuildAux, ih]

theorem rebuildAux_getD {s t : Nat} {mv : Txt} :
    ∀ (bs : List Txt) (i j : Nat), j < bs.length →
      (rebuildAux s t mv i bs).getD j [] =
        (if i + j = s then nfcTxt (bs.getD j [])
         else if i + j = t then nfcTxt (nfdTxt (bs.getD j []) ++ mv)
         else nfcTxt (bs.getD j [])) := by
  intro bs
  induction bs with
  | nil => intro i j h; simp at h
  | cons b bs ih =>
    intro i j h
    cases j with
    | zero => simp [rebuildAux]
    | succ n =>
      have hrec := ih (i + 1) n (by simpa using Nat.lt_of_succ_lt_succ h)
      simp only [rebuildAux, List.getD_cons_succ]
      rw [hrec, show i + 1 + n = i + (n + 1) by omega]

/-- In the case where the moved mark recomposes with the target's base, the
flattened rebuild is a string of the original length whose characters are the
original bases, except the composed character at the target. -/
theorem rebuild_sing {s t : Nat} {m : Char} (hm : nfdChar m = [m])
    (hst : s ≠ t) :
    ∀ (bs : List Txt) (i : Nat),
      (∀ b ∈ bs, ∃ x, b = [x] ∧ nfdChar x = [x]) →
      (∀ j, j < bs.length → i + j = t →
        (composePair ((bs.getD j []).getD 0 ' ') m).isSome = true) →
      ∃ ys : Txt, (rebuildAux s t [m] i bs).flatten = ys ∧
        ys.length = bs.length ∧
        ∀ j, j < bs.length → ys.getD j ' ' =
          (if i + j = t then
            (composePair ((bs.getD j []).getD 0 ' ') m).getD ' '
           else (bs.getD j []).getD 0 ' ') := by
  intro bs
  induction bs with
  | nil =>
    intro i _ _
    exact ⟨[], rfl, rfl, by intro j h; simp at h⟩
  | cons b bs ih =>
    intro i hgood hcomp
    obtain ⟨x, rfl, hx⟩ := hgood b (by simp)
    obtain ⟨ys, hys, hlen, hget⟩ := ih (i + 1)
      (fun b hb => hgood b (by simp [hb]))
      (fun j hj hej => by
        have := hcomp (j + 1) (by simpa using Nat.succ_lt_succ hj) (by omega)
        simpa using this)
    by_cases hit : i = t
    · have hs : i ≠ s := fun h => hst (h.symm.trans hit)
      have hc := hcomp 0 (by simp) (by omega)
      obtain ⟨c, hcc⟩ := Option.isSome_iff_exists.mp (by simpa using hc)
      have hpiece : (if i = s then nfcTxt [x]
          else if i = t then nfcTxt (nfdTxt [x] ++ [m])
          else nfcTxt [x]) = [c] := by
        rw [if_neg hs, if_pos hit, show nfdTxt [x] = [x] by simp [nfdTxt, hx],
          show [x] ++ [m] = [x, m] from rfl, nfcTxt_bm_some hx hm hcc]
      refine ⟨c :: ys, ?_, by simp [hlen], ?_⟩
      · simp only [rebuildAux, List.flatten_cons, hpiece, hys]
        rfl
      · intro j hj
        cases j with
        | zero => simp [hit, hcc]
        | succ n =>
          have := hget n (by simpa using Nat.lt_of_succ_lt_succ hj)
          simp only [List.getD_cons_succ]
          rw [this, show i + 1 + n = i + (n + 1) by omega]
    · have hpiece : (if i = s then nfcTxt [x]
          else if i = t then nfcTxt (nfdTxt [x] ++ [m])
          else nfcTxt [x]) = [x] := by
        rcases eq_or_ne i s with h | h
        · rw [if_pos h, nfcTxt_single hx]
        · rw [if_neg h, if_neg hit, nfcTxt_single hx]
      refine ⟨x :: ys, ?_, by simp [hlen], ?_⟩
      · simp only [rebuildAux, List.flatten_cons, hpiece, hys]
        rfl
      · intro j hj
        cases j with
        | zero => simp [hit]
        | succ n =>
          have := hget n (by simpa using Nat.lt_of_succ_lt_succ hj)
          simp only [List.getD_cons_succ]
          rw [this, show i + 1 + n = i + (n + 1) by omega]

/-- A token whose first vowel already carries marks is left unchanged. -/
theorem move_noop_target_marked {u : Txt} {tIdx : Nat}
    (hv : find_first_vowel_index u = some tIdx)
    (hm : marksOf (u.getD tIdx ' ') ≠ []) :
    move_diacritic_to_first_vowel u = (u, false) := by
  obtain ⟨ht, _, _⟩ := findVowel_spec hv
  have hmarks : (u.map marksOf).getD tIdx [] ≠ [] := by
    rw [getD_map_of_lt marksOf ht ' ' []]
    exact hm
  obtain ⟨sIdx, hs⟩ := findSource_isSome (by simpa using ht) hmarks
  by_cases hst : sIdx = tIdx
  · exact move_noop_same hs hv hst
  · exact move_noop_marked hs hv hmarks

/-! ## Claim C3 -/

/-- C3 counterexample: the Repositioner is not idempotent.  On the token
`m`, combining overline, `a` the overline (which has no precomposed
combination with `a`) is moved after the vowel as a free-standing mark, and
a second application moves a copy of it again, growing the token. -/
theorem c3_counterexample :
    move_diacritic_to_first_vowel ['m', '\u0305', 'a'] =
        (['m', '\u0305', 'a', '\u0305'], true) ∧
      move_diacritic_to_first_vowel
          ((move_diacritic_to_first_vowel ['m', '\u0305', 'a']).1) ≠
        ((move_diacritic_to_first_vowel ['m', '\u0305', 'a']).1, false) := by
  constructor
  · decide
  · decide

/-- C3 (amended): the Repositioner is idempotent on every token for which
any applied move recomposes the single moved mark with the first vowel's
base into one precomposed character (`moveComposes`); a second application
then returns the first application's output unchanged. -/
theorem c3_amended_idempotent (token : Txt) (h : moveComposes token = true) :
    move_diacritic_to_first_vowel ((move_diacritic_to_first_vowel token).1) =
      ((move_diacritic_to_first_vowel token).1, false) := by
  cases hs : findSource (token.map marksOf) with
  | none =>
    rw [move_noop_nosource hs]
    exact move_noop_nosource hs
  | some sIdx =>
    cases hv : find_first_vowel_index token with
    | none =>
      rw [move_noop_novowel hs hv]
      exact move_noop_novowel hs hv
    | some tIdx =>
      by_cases hst : sIdx = tIdx
      · rw [move_noop_same hs hv hst]
        exact move_noop_same hs hv hst
      · by_cases hmt : (token.map marksOf).getD tIdx [] = []
        · -- the moving case
          simp only [moveComposes, hs, hv] at h
          rw [if_neg hst, hmt] at h
          simp only [List.isEmpty_nil, Bool.not_true, Bool.false_eq_true,
            if_false] at h
          obtain ⟨hslt0, hsmark, _⟩ := findSource_spec hs
          obtain ⟨htlt, htv, htlo⟩ := findVowel_spec hv
          have hslt : sIdx < token.length := by simpa using hslt0
          have hmark_s : marksOf (token.getD sIdx ' ') ≠ [] := by
            rwa [getD_map_of_lt marksOf hslt ' ' []] at hsmark
          obtain ⟨m, hmeq, _, hmn⟩ := marksOf_single hmark_s
          have hmoving : (token.map marksOf).getD sIdx [] = [m] := by
            rw [getD_map_of_lt marksOf hslt ' ' []]
            exact hmeq
          obtain ⟨bt, hbt_d, hbt_b, hbt_n, hbt_im, hbt_v⟩ := vowel_base htv
          have hbase_t : (token.map baseOf).getD tIdx [] = [bt] := by
            rw [getD_map_of_lt baseOf htlt ' ' []]
            exact hbt_b
          rw [hbase_t, hmoving] at h
          obtain ⟨c, hc⟩ := Option.isSome_iff_exists.mp (by simpa using h)
          have hmove := move_changed hs hv hst hmt
          rw [hmoving] at hmove
          obtain ⟨ys, hys, hylen, hyget⟩ := rebuild_sing hmn hst
            (token.map baseOf) 0
            (by
              intro b hb
              obtain ⟨ch, _, rfl⟩ := List.mem_map.mp hb
              obtain ⟨x, hx1, hx2, _⟩ := baseOf_char ch
              exact ⟨x, hx1, hx2⟩)
            (by
              intro j hj hje
              have hj' : j = tIdx := by omega
              subst hj'
              rw [hbase_t]
              simpa using Option.isSome_iff_exists.mpr ⟨c, hc⟩)
          rw [hys] at hmove
          have htlen : ys.length = token.length := by simpa using hylen
          have hyt : ys.getD tIdx ' ' = c := by
            rw [hyget tIdx (by simpa using htlt), if_pos (by omega), hbase_t]
            simp [hc]
          rw [hmove]
          show move_diacritic_to_first_vowel ys = (ys, false)
          apply @move_noop_target_marked ys tIdx
          · apply findVowel_of
            · rw [htlen]; exact htlt
            · rw [hyt]
              have hd := (composePair_class hc).2.2.2
              simpa [vowelB, hd] using hbt_v
            · intro i hi
              have hilt : i < token.length := Nat.lt_trans hi htlt
              rw [hyget i (by simpa using hilt), if_neg (by omega),
                getD_map_of_lt baseOf hilt ' ' []]
              obtain ⟨x, hxb, _, hxv⟩ := baseOf_char (token.getD i ' ')
              rw [hxb]
              simp only [List.getD_cons_zero]
              rw [hxv]
              exact htlo i hi
          · rw [hyt]
            have := (composePair_class hc).2.2.1
            simp [this]
        · rw [move_noop_marked hs hv hmt]
          exact move_noop_marked hs hv hmt

/-- Witness for the amended C3 theorem at a token whose acute accent moves
from the `m` onto the `a` and composes there. -/
theorem c3_witness :
    moveComposes ['ḿ', 'a'] = true ∧
      move_diacritic_to_first_vowel
          ((move_diacritic_to_first_vowel ['ḿ', 'a']).1) =
        ((move_diacritic_to_first_vowel ['ḿ', 'a']).1, false) :=
  ⟨by decide, c3_amended_idempotent ['ḿ', 'a'] (by decide)⟩

/-! ## Claim C8 -/

/-- C8: a token that carries a combining mark on some character but has no
character whose base letter is a basic Latin vowel is returned unchanged
with changed = false; in particular no `m`/`n` nucleus or first-character
fallback is applied. -/
theorem c8_no_vowel_noop (token : Txt) (sIdx : Nat)
    (hs : findSource (token.map marksOf) = some sIdx)
    (hv : find_first_vowel_index token = none) :
    move_diacritic_to_first_vowel token = (token, false) :=
  move_noop_novowel hs hv

/-- Witness for C8 at the token `ḿn` (spec example 3). -/
theorem c8_witness :
    findSource ((['ḿ', 'n'] : Txt).map marksOf) = some 0 ∧
      find_first_vowel_index (['ḿ', 'n'] : Txt) = none ∧
      move_diacritic_to_first_vowel ['ḿ', 'n'] = (['ḿ', 'n'], false) :=
  ⟨by decide, by decide, c8_no_vowel_noop ['ḿ', 'n'] 0 (by decide) (by decide)⟩

/-! ## Claims C2, C1 and C10 -/

theorem filter_isMark_base (l : Txt) :
    (l.filter (fun c => !(isMark c))).filter isMark = [] := by
  induction l with
  | nil => rfl
  | cons c t ih =>
    by_cases h : isMark c <;> simp [List.filter_cons, h, ih]

/-- C2 counterexample: on the token combining-acute-accent, `a` the move
applies (source index 0, target index 1, target unmarked), yet the combining
mark is not removed from the character at the source index: the output keeps
the free-standing combining acute at position 0 (its mark set is nonempty),
so no bare base letter is left there. -/
theorem c2_counterexample :
    findSource ((['\u0301', 'a'] : Txt).map marksOf) = some 0 ∧
      find_first_vowel_index (['\u0301', 'a'] : Txt) = some 1 ∧
      move_diacritic_to_first_vowel ['\u0301', 'a'] =
        (['\u0301', 'á'], true) ∧
      marksOf ((move_diacritic_to_first_vowel ['\u0301', 'a']).1.getD 0 ' ')
        ≠ [] := by
  refine ⟨by decide, by decide, by decide, by decide⟩

/-- C2 (amended): when the move applies and the source character has a
nonempty NFD base, the token is rebuilt per character in original order
(changed = true); the source position is reduced to exactly its bare base
letter with no remaining marks, and the target position becomes the NFC
recomposition of its own base letter followed by exactly the source's
marks, whose canonical decomposition is that base plus those marks.  (For a
free-standing combining-mark source the mark is copied, not removed — see
the counterexample and C10.) -/
theorem c2_amended_move_spec (token : Txt) (sIdx tIdx : Nat)
    (hs : findSource (token.map marksOf) = some sIdx)
    (hv : find_first_vowel_index token = some tIdx)
    (hst : sIdx ≠ tIdx)
    (hmt : (token.map marksOf).getD tIdx [] = [])
    (hbs : (decomposeChar (token.getD sIdx ' ')).1 ≠ []) :
    move_diacritic_to_first_vowel token =
      ((rebuildAux sIdx tIdx (marksOf (token.getD sIdx ' ')) 0
        (token.map baseOf)).flatten, true) ∧
    (rebuildAux sIdx tIdx (marksOf (token.getD sIdx ' ')) 0
      (token.map baseOf)).length = token.length ∧
    nfdTxt ((rebuildAux sIdx tIdx (marksOf (token.getD sIdx ' ')) 0
        (token.map baseOf)).getD sIdx []) =
      (decomposeChar (token.getD sIdx ' ')).1 ∧
    (nfdTxt ((rebuildAux sIdx tIdx (marksOf (token.getD sIdx ' ')) 0
        (token.map baseOf)).getD sIdx [])).filter isMark = [] ∧
    (rebuildAux sIdx tIdx (marksOf (token.getD sIdx ' ')) 0
        (token.map baseOf)).getD tIdx [] =
      nfcTxt ((decomposeChar (token.getD tIdx ' ')).1 ++
        marksOf (token.getD sIdx ' ')) ∧
    nfdTxt ((rebuildAux sIdx tIdx (marksOf (token.getD sIdx ' ')) 0
        (token.map baseOf)).getD tIdx []) =
      (decomposeChar (token.getD tIdx ' ')).1 ++
        marksOf (token.getD sIdx ' ') := by
  obtain ⟨hslt0, hsmark, _⟩ := findSource_spec hs
  obtain ⟨htlt, htv, _⟩ := findVowel_spec hv
  have hslt : sIdx < token.length := by simpa using hslt0
  have hmark_s : marksOf (token.getD sIdx ' ') ≠ [] := by
    rwa [getD_map_of_lt marksOf hslt ' ' []] at hsmark
  have hmoving : (token.map marksOf).getD sIdx [] =
      marksOf (token.getD sIdx ' ') :=
    getD_map_of_lt marksOf hslt ' ' []
  -- the source character is a precomposed letter of the table
  rcases char_class (token.getD sIdx ' ') with ⟨h0, _⟩ | ⟨_, _, hd, _, _⟩ |
    ⟨b, m, hmk, hbase, hd, _, _, himb, _, hnb, hnm, _⟩
  · exact absurd h0 hmark_s
  · exact absurd hd hbs
  obtain ⟨bt, hbt_d, hbt_b, hbt_n, hbt_im, _⟩ := vowel_base htv
  have hbase_s : (token.map baseOf).getD sIdx [] = [b] := by
    rw [getD_map_of_lt baseOf hslt ' ' []]; exact hbase
  have hbase_t : (token.map baseOf).getD tIdx [] = [bt] := by
    rw [getD_map_of_lt baseOf htlt ' ' []]; exact hbt_b
  have hmove := move_changed hs hv hst hmt
  rw [hmoving] at hmove
  have hlenb : (token.map baseOf).length = token.length := by simp
  have hps : (rebuildAux sIdx tIdx (marksOf (token.getD sIdx ' ')) 0
      (token.map baseOf)).getD sIdx [] = [b] := by
    rw [rebuildAux_getD _ 0 sIdx (by simpa using hslt), if_pos (by omega),
      hbase_s, nfcTxt_single hnb]
  have hpt : (rebuildAux sIdx tIdx (marksOf (token.getD sIdx ' ')) 0
      (token.map baseOf)).getD tIdx [] =
      nfcTxt ([bt] ++ marksOf (token.getD sIdx ' ')) := by
    rw [rebuildAux_getD _ 0 tIdx (by simpa using htlt),
      if_neg (by omega), if_pos (by omega), hbase_t,
      show nfdTxt [bt] = [bt] by simp [nfdTxt, hbt_n]]
  refine ⟨hmove, by rw [rebuildAux_length]; simp, ?_, ?_, ?_, ?_⟩
  · rw [hps, hd]
    simp [nfdTxt, hnb]
  · rw [hps]
    rw [show nfdTxt [b] = [b] by simp [nfdTxt, hnb]]
    rw [hd.symm]
    exact filter_isMark_base _
  · rw [hpt, hbt_d]
  · rw [hpt, hbt_d.symm, hbt_d]
    have := @nfd_nfc_base_marks [bt] (marksOf (token.getD sIdx ' '))
      (Or.inr ⟨bt, rfl, hbt_n⟩) (Or.inr ⟨m, hmk, hnm⟩)
    rw [show nfdTxt [bt] = [bt] by simp [nfdTxt, hbt_n]] at this
    exact this

/-- Witness for the amended C2 at the token `ḿa`. -/
theorem c2_witness :
    findSource ((['ḿ', 'a'] : Txt).map marksOf) = some 0 ∧
      find_first_vowel_index (['ḿ', 'a'] : Txt) = some 1 ∧
      (0 : Nat) ≠ 1 ∧
      ((['ḿ', 'a'] : Txt).map marksOf).getD 1 [] = [] ∧
      (decomposeChar ((['ḿ', 'a'] : Txt).getD 0 ' ')).1 ≠ [] ∧
      move_diacritic_to_first_vowel ['ḿ', 'a'] =
        ((rebuildAux 0 1 (marksOf ((['ḿ', 'a'] : Txt).getD 0 ' ')) 0
          ((['ḿ', 'a'] : Txt).map baseOf)).flatten, true) :=
  ⟨by decide, by decide, by decide, by decide, by decide,
    (c2_amended_move_spec ['ḿ', 'a'] 0 1 (by decide) (by decide)
      (by decide) (by decide) (by decide)).1⟩

/-- C1 counterexample: on the token `ḿaé` the move applies (source 0,
target 1), the character at index 2 carries an acute accent before the
transform, and carries no mark at all afterwards — marks of characters other
than the source are not preserved. -/
theorem c1_counterexample :
    move_diacritic_to_first_vowel ['ḿ', 'a', 'é'] = (['m', 'á', 'e'], true) ∧
      marksOf ((['ḿ', 'a', 'é'] : Txt).getD 2 ' ') ≠ [] ∧
      marksOf ((move_diacritic_to_first_vowel ['ḿ', 'a', 'é']).1.getD 2 ' ')
        = [] := by
  refine ⟨by decide, by decide, by decide⟩

/-- C1 (amended): when the move applies, every character other than the
source and the target is rebuilt as the NFC of its bare NFD base: its
decomposition in the output is exactly its base letter, so any combining
marks it carried (attached to a nonempty base) are stripped rather than
left untouched; only its base letter is kept. -/
theorem c1_amended_frame (token : Txt) (sIdx tIdx j : Nat)
    (hs : findSource (token.map marksOf) = some sIdx)
    (hv : find_first_vowel_index token = some tIdx)
    (hst : sIdx ≠ tIdx)
    (hmt : (token.map marksOf).getD tIdx [] = [])
    (hj : j < token.length) (hjs : j ≠ sIdx) (hjt : j ≠ tIdx) :
    move_diacritic_to_first_vowel token =
      ((rebuildAux sIdx tIdx ((token.map marksOf).getD sIdx []) 0
        (token.map baseOf)).flatten, true) ∧
    (rebuildAux sIdx tIdx ((token.map marksOf).getD sIdx []) 0
        (token.map baseOf)).getD j [] =
      nfcTxt (baseOf (token.getD j ' ')) ∧
    nfdTxt ((rebuildAux sIdx tIdx ((token.map marksOf).getD sIdx []) 0
        (token.map baseOf)).getD j []) = baseOf (token.getD j ' ') ∧
    ((decomposeChar (token.getD j ' ')).1 ≠ [] →
      (nfdTxt ((rebuildAux sIdx tIdx ((token.map marksOf).getD sIdx []) 0
        (token.map baseOf)).getD j [])).filter isMark = []) := by
  have hmove := move_changed hs hv hst hmt
  have hpj : (rebuildAux sIdx tIdx ((token.map marksOf).getD sIdx []) 0
      (token.map baseOf)).getD j [] =
      nfcTxt (baseOf (token.getD j ' ')) := by
    rw [rebuildAux_getD _ 0 j (by simpa using hj), if_neg (by omega),
      if_neg (by omega), getD_map_of_lt baseOf hj ' ' []]
  obtain ⟨x, hxb, hxn, _⟩ := baseOf_char (token.getD j ' ')
  have hnfd : nfdTxt ((rebuildAux sIdx tIdx ((token.map marksOf).getD sIdx [])
      0 (token.map baseOf)).getD j []) = baseOf (token.getD j ' ') := by
    rw [hpj, hxb, nfcTxt_single hxn]
    simp [nfdTxt, hxn]
  refine ⟨hmove, hpj, hnfd, ?_⟩
  intro hbne
  rw [hnfd]
  have : baseOf (token.getD j ' ') = (decomposeChar (token.getD j ' ')).1 := by
    unfold baseOf
    rw [if_neg (by simpa [List.isEmpty_iff] using hbne)]
  rw [this]
  exact filter_isMark_base _

/-- Witness for the amended C1 at the token `ḿaé` (position 2 loses its
acute accent and keeps only its base letter `e`). -/
theorem c1_witness :
    findSource ((['ḿ', 'a', 'é'] : Txt).map marksOf) = some 0 ∧
      find_first_vowel_index (['ḿ', 'a', 'é'] : Txt) = some 1 ∧
      (0 : Nat) ≠ 1 ∧
      ((['ḿ', 'a', 'é'] : Txt).map marksOf).getD 1 [] = [] ∧
      (2 : Nat) < (['ḿ', 'a', 'é'] : Txt).length ∧
      nfdTxt ((rebuildAux 0 1 (((['ḿ', 'a', 'é'] : Txt).map marksOf).getD 0 [])
          0 ((['ḿ', 'a', 'é'] : Txt).map baseOf)).getD 2 []) =
        baseOf ((['ḿ', 'a', 'é'] : Txt).getD 2 ' ') :=
  ⟨by decide, by decide, by decide, by decide, by decide,
    (c1_amended_frame ['ḿ', 'a', 'é'] 0 1 2 (by decide) (by decide)
      (by decide) (by decide) (by decide) (by decide) (by decide)).2.2.1⟩

/-- C10: when the first mark-carrying character is a free-standing combining
mark (empty NFD base) and the move applies, the mark character is the whole
content of that position's decomposition, the output still keeps that very
character at its source position, and the target's rebuilt character
decomposes to its own base letter followed by that same mark: the mark is
copied onto the vowel, not removed from its source. -/
theorem c10_mark_copied (token : Txt) (sIdx tIdx : Nat)
    (hs : findSource (token.map marksOf) = some sIdx)
    (hv : find_first_vowel_index token = some tIdx)
    (hst : sIdx ≠ tIdx)
    (hmt : (token.map marksOf).getD tIdx [] = [])
    (hfs : (decomposeChar (token.getD sIdx ' ')).1 = []) :
    move_diacritic_to_first_vowel token =
      ((rebuildAux sIdx tIdx [token.getD sIdx ' '] 0
        (token.map baseOf)).flatten, true) ∧
    marksOf (token.getD sIdx ' ') = [token.getD sIdx ' '] ∧
    (rebuildAux sIdx tIdx [token.getD sIdx ' '] 0
        (token.map baseOf)).getD sIdx [] = [token.getD sIdx ' '] ∧
    nfdTxt ((rebuildAux sIdx tIdx [token.getD sIdx ' '] 0
        (token.map baseOf)).getD tIdx []) =
      (decomposeChar (token.getD tIdx ' ')).1 ++ [token.getD sIdx ' '] := by
  obtain ⟨hslt0, hsmark, _⟩ := findSource_spec hs
  obtain ⟨htlt, htv, _⟩ := findVowel_spec hv
  have hslt : sIdx < token.length := by simpa using hslt0
  -- the source character is a free-standing mark (class 2)
  rcases char_class (token.getD sIdx ' ') with ⟨h0, _⟩ | ⟨hmk, hbase, _, hn, _⟩ |
    ⟨b, _, _, _, hd, _, _, _, _, _, _, _⟩
  · exact absurd h0 (by
      rwa [getD_map_of_lt marksOf hslt ' ' []] at hsmark)
  · obtain ⟨bt, hbt_d, hbt_b, hbt_n, _, _⟩ := vowel_base htv
    have hmoving : (token.map marksOf).getD sIdx [] =
        [token.getD sIdx ' '] := by
      rw [getD_map_of_lt marksOf hslt ' ' []]
      exact hmk
    have hbase_s : (token.map baseOf).getD sIdx [] =
        [token.getD sIdx ' '] := by
      rw [getD_map_of_lt baseOf hslt ' ' []]
      exact hbase
    have hbase_t : (token.map baseOf).getD tIdx [] = [bt] := by
      rw [getD_map_of_lt baseOf htlt ' ' []]
      exact hbt_b
    have hmove := move_changed hs hv hst hmt
    rw [hmoving] at hmove
    refine ⟨hmove, hmk, ?_, ?_⟩
    · rw [rebuildAux_getD _ 0 sIdx (by simpa using hslt), if_pos (by omega),
        hbase_s, nfcTxt_single hn]
    · rw [rebuildAux_getD _ 0 tIdx (by simpa using htlt),
        if_neg (by omega), if_pos (by omega), hbase_t, hbt_d]
      have := @nfd_nfc_base_marks [bt] [token.getD sIdx ' ']
        (Or.inr ⟨bt, rfl, hbt_n⟩) (Or.inr ⟨token.getD sIdx ' ', rfl, hn⟩)
      exact this
  · rw [hd] at hfs
    exact absurd hfs (by simp)

/-- Witness for C10 at the token combining-acute, `a`. -/
theorem c10_witness :
    findSource ((['\u0301', 'a'] : Txt).map marksOf) = some 0 ∧
      find_first_vowel_index (['\u0301', 'a'] : Txt) = some 1 ∧
      (0 : Nat) ≠ 1 ∧
      ((['\u0301', 'a'] : Txt).map marksOf).getD 1 [] = [] ∧
      (decomposeChar ((['\u0301', 'a'] : Txt).getD 0 ' ')).1 = [] ∧
      (rebuildAux 0 1 [(['\u0301', 'a'] : Txt).getD 0 ' '] 0
          ((['\u0301', 'a'] : Txt).map baseOf)).getD 0 [] =
        [(['\u0301', 'a'] : Txt).getD 0 ' '] :=
  ⟨by decide, by decide, by decide, by decide, by decide,
    (c10_mark_copied ['\u0301', 'a'] 0 1 (by decide) (by decide) (by decide)
      (by decide) (by decide)).2.2.1⟩

/-! ## The Region Extractor: claims C6 and C7 -/

theorem stripLit_eq : ∀ {lit s r : Txt}, stripLit lit s = some r →
    s = lit ++ r := by
  intro lit
  induction lit with
  | nil =>
    intro s r h
    have h' : some s = some r := h
    simpa using Option.some_inj.mp h'
  | cons c cs ih =>
    intro s r h
    cases s with
    | nil => simp [stripLit] at h
    | cons d ds =>
      simp only [stripLit] at h
      by_cases hd : c = d
      · rw [if_pos hd] at h
        rw [← hd, List.cons_append, ← ih h]
      · rw [if_neg hd] at h
        simp at h

theorem expectChar_eq : ∀ {c : Char} {s r : Txt},
    expectChar c s = some r → s = c :: r := by
  intro c s r h
  cases s with
  | nil => simp [expectChar] at h
  | cons d ds =>
    simp only [expectChar] at h
    by_cases hd : d = c
    · rw [if_pos hd] at h
      rw [hd, Option.some_inj.mp h]
    · rw [if_neg hd] at h
      simp at h

theorem matchAnchorAt_append {s m r : Txt} (h : matchAnchorAt s = some (m, r)) :
    s = m ++ r := by
  cases h1 : stripLit ['v', 'a', 'r'] s with
  | none => simp [matchAnchorAt, h1] at h
  | some r1 =>
    by_cases hw : (r1.takeWhile isSpace).isEmpty
    · simp [matchAnchorAt, h1, hw] at h
    · cases h2 : stripLit ['y', 'u', 'e', 'p', 'i', 'n']
          (r1.dropWhile isSpace) with
      | none => simp [matchAnchorAt, h1, hw, h2] at h
      | some r2 =>
        cases h3 : expectChar '=' (r2.dropWhile isSpace) with
        | none => simp [matchAnchorAt, h1, hw, h2, h3] at h
        | some r3 =>
          cases h4 : expectChar '{' (r3.dropWhile isSpace) with
          | none => simp [matchAnchorAt, h1, hw, h2, h3, h4] at h
          | some r4 =>
            simp only [matchAnchorAt, h1, hw, h2, h3, h4,
              Bool.false_eq_true, if_false, Option.some.injEq,
              Prod.mk.injEq] at h
            obtain ⟨hm, hr⟩ := h
            rw [stripLit_eq h1,
              show r1 = r1.takeWhile isSpace ++ r1.dropWhile isSpace from
                (List.takeWhile_append_dropWhile isSpace r1).symm,
              stripLit_eq h2,
              show r2 = r2.takeWhile isSpace ++ r2.dropWhile isSpace from
                (List.takeWhile_append_dropWhile isSpace r2).symm,
              expectChar_eq h3,
              show r3 = r3.takeWhile isSpace ++ r3.dropWhile isSpace from
                (List.takeWhile_append_dropWhile isSpace r3).symm,
              expectChar_eq h4, ← hm, ← hr]
            simp

theorem findAnchorAux_eq : ∀ {s revPre p m r : Txt},
    findAnchorAux revPre s = some (p, m, r) →
    revPre.reverse ++ s = p ++ m ++ r := by
  intro s
  induction s with
  | nil =>
    intro revPre p m r h
    have hnone : matchAnchorAt [] = none := rfl
    simp [findAnchorAux, hnone] at h
  | cons c t ih =>
    intro revPre p m r h
    unfold findAnchorAux at h
    cases hm : matchAnchorAt (c :: t) with
    | some mr =>
      rw [hm] at h
      obtain ⟨m2, r2⟩ := mr
      simp only [Option.some.injEq, Prod.mk.injEq] at h
      obtain ⟨h1, h2, h3⟩ := h
      subst h1
      subst h2
      subst h3
      rw [List.append_assoc, ← matchAnchorAt_append hm]
    | none =>
      rw [hm] at h
      have := ih h
      rw [← this]
      simp

theorem scanToClose_append : ∀ {s : Txt} {d : Nat} {a b : Txt},
    scanToClose s d = some (a, b) → s = a ++ b := by
  intro s
  induction s with
  | nil => intro d a b h; simp [scanToClose] at h
  | cons c t ih =>
    intro d a b h
    unfold scanToClose at h
    by_cases h1 : c = '{'
    · rw [if_pos h1] at h
      obtain ⟨p, hp, hpe⟩ := Option.map_eq_some'.mp h
      simp only [Prod.mk.injEq] at hpe
      obtain ⟨hpe1, hpe2⟩ := hpe
      subst hpe1
      subst hpe2
      rw [List.cons_append, ← ih hp]
    · rw [if_neg h1] at h
      by_cases h2 : c = '}'
      · rw [if_pos h2] at h
        by_cases h3 : d = 1
        · rw [if_pos h3] at h
          simp only [Option.some.injEq, Prod.mk.injEq] at h
          obtain ⟨h5, h6⟩ := h
          subst h5
          subst h6
          rfl
        · rw [if_neg h3] at h
          obtain ⟨p, hp, hpe⟩ := Option.map_eq_some'.mp h
          simp only [Prod.mk.injEq] at hpe
          obtain ⟨hpe1, hpe2⟩ := hpe
          subst hpe1
          subst hpe2
          rw [List.cons_append, ← ih hp]
      · rw [if_neg h2] at h
        obtain ⟨p, hp, hpe⟩ := Option.map_eq_some'.mp h
        simp only [Prod.mk.injEq] at hpe
        obtain ⟨hpe1, hpe2⟩ := hpe
        subst hpe1
        subst hpe2
        rw [List.cons_append, ← ih hp]

theorem scanToClose_last : ∀ {s : Txt} {d : Nat} {a b : Txt},
    scanToClose s d = some (a, b) → a ≠ [] ∧ a.getLast? = some '}' := by
  intro s
  induction s with
  | nil => intro d a b h; simp [scanToClose] at h
  | cons c t ih =>
    intro d a b h
    unfold scanToClose at h
    by_cases h1 : c = '{'
    · rw [if_pos h1] at h
      obtain ⟨p, hp, hpe⟩ := Option.map_eq_some'.mp h
      simp only [Prod.mk.injEq] at hpe
      obtain ⟨hpe1, -⟩ := hpe
      subst hpe1
      obtain ⟨hne, hlast⟩ := ih hp
      refine ⟨by simp, ?_⟩
      cases hpp : p.1 with
      | nil => exact absurd hpp hne
      | cons x xs =>
        rw [hpp] at hlast
        rw [List.getLast?_cons_cons]
        exact hlast
    · rw [if_neg h1] at h
      by_cases h2 : c = '}'
      · rw [if_pos h2] at h
        by_cases h3 : d = 1
        · rw [if_pos h3] at h
          simp only [Option.some.injEq, Prod.mk.injEq] at h
          obtain ⟨h5, -⟩ := h
          subst h5
          exact ⟨by simp, by simp [h2]⟩
        · rw [if_neg h3] at h
          obtain ⟨p, hp, hpe⟩ := Option.map_eq_some'.mp h
          simp only [Prod.mk.injEq] at hpe
          obtain ⟨hpe1, -⟩ := hpe
          subst hpe1
          obtain ⟨hne, hlast⟩ := ih hp
          refine ⟨by simp, ?_⟩
          cases hpp : p.1 with
          | nil => exact absurd hpp hne
          | cons x xs =>
            rw [hpp] at hlast
            rw [List.getLast?_cons_cons]
            exact hlast
      · rw [if_neg h2] at h
        obtain ⟨p, hp, hpe⟩ := Option.map_eq_some'.mp h
        simp only [Prod.mk.injEq] at hpe
        obtain ⟨hpe1, -⟩ := hpe
        subst hpe1
        obtain ⟨hne, hlast⟩ := ih hp
        refine ⟨by simp, ?_⟩
        cases hpp : p.1 with
        | nil => exact absurd hpp hne
        | cons x xs =>
          rw [hpp] at hlast
          rw [List.getLast?_cons_cons]
          exact hlast

/-- Successful extraction decomposes the document exactly. -/
theorem split_concat {text pre obj suf : Txt}
    (h : split_js_object text = .ok (pre, obj, suf)) :
    pre ++ obj ++ suf = text := by
  cases ha : findAnchorSplit text with
  | none => simp [split_js_object, ha] at h
  | some par =>
    obtain ⟨p, mm, r⟩ := par
    cases hb : scanToClose r 1 with
    | none => simp [split_js_object, ha, hb] at h
    | some bs =>
      obtain ⟨body, sfx⟩ := bs
      simp only [split_js_object, ha, hb, Except.ok.injEq,
        Prod.mk.injEq] at h
      obtain ⟨h1, h2, h3⟩ := h
      subst h1
      subst h2
      subst h3
      have h4 := @findAnchorAux_eq text [] p mm r
        (by simpa [findAnchorSplit] using ha)
      simp only [List.reverse_nil, List.nil_append] at h4
      have h5 : r = body ++ sfx := scanToClose_append hb
      rw [h4, h5]
      simp

/-- The object text ends with the matching closing brace. -/
theorem split_obj_last {text pre obj suf : Txt}
    (h : split_js_object text = .ok (pre, obj, suf)) :
    obj.getLast? = some '}' := by
  cases ha : findAnchorSplit text with
  | none => simp [split_js_object, ha] at h
  | some par =>
    obtain ⟨p, mm, r⟩ := par
    cases hb : scanToClose r 1 with
    | none => simp [split_js_object, ha, hb] at h
    | some bs =>
      obtain ⟨body, sfx⟩ := bs
      simp only [split_js_object, ha, hb, Except.ok.injEq,
        Prod.mk.injEq] at h
      obtain ⟨-, h2, -⟩ := h
      obtain ⟨hne, hlast⟩ := scanToClose_last hb
      rw [← h2, List.getLast?_append_of_ne_nil mm hne]
      exact hlast

/-- C6: whenever the Region Extractor succeeds, prefix, object text and
suffix concatenate back to the original document, character for
character. -/
theorem c6_extract_roundtrip (text pre obj suf : Txt)
    (h : split_js_object text = .ok (pre, obj, suf)) :
    pre ++ obj ++ suf = text :=
  split_concat h

/-- Witness for C6 on a small document with a nested brace pair. -/
theorem c6_witness :
    split_js_object ("zz var yuepin = \x7b a \x7b\x7d b \x7d tail").data =
      .ok (('z' :: ['z', ' ']),
        ("var yuepin = \x7b a \x7b\x7d b \x7d").data,
        (' ' :: ['t', 'a', 'i', 'l'])) ∧
    ('z' :: ['z', ' ']) ++ ("var yuepin = \x7b a \x7b\x7d b \x7d").data ++
      (' ' :: ['t', 'a', 'i', 'l']) =
      ("zz var yuepin = \x7b a \x7b\x7d b \x7d tail").data :=
  ⟨by decide,
    c6_extract_roundtrip ("zz var yuepin = \x7b a \x7b\x7d b \x7d tail").data
      ('z' :: ['z', ' ']) ("var yuepin = \x7b a \x7b\x7d b \x7d").data
      (' ' :: ['t', 'a', 'i', 'l']) (by decide)⟩

/-- C7: when the anchor pattern is absent, or when the brace depth started
after the anchor never returns to zero, the run ends with the corresponding
fatal error and nothing is ever written to the file. -/
theorem c7_fatal_no_write (text : Txt) (fix : Bool) :
    (findAnchorSplit text = none →
      run text fix = .fatal .anchorNotFound ∧
        writtenOf (run text fix) = none) ∧
    (∀ pre anchor rest, findAnchorSplit text = some (pre, anchor, rest) →
      scanToClose rest 1 = none →
      run text fix = .fatal .unbalanced ∧
        writtenOf (run text fix) = none) := by
  constructor
  · intro ha
    have hsp : split_js_object text = .error .anchorNotFound := by
      simp [split_js_object, ha]
    constructor <;> simp [run, hsp, writtenOf]
  · intro pre anchor rest ha hb
    have hsp : split_js_object text = .error .unbalanced := by
      simp [split_js_object, ha, hb]
    constructor <;> simp [run, hsp, writtenOf]

/-- Witness for C7: a document without the anchor, and one whose braces
never close. -/
theorem c7_witness :
    (findAnchorSplit ("hello").data = none ∧
      run ("hello").data true = .fatal .anchorNotFound ∧
      writtenOf (run ("hello").data true) = none) ∧
    (findAnchorSplit ("var yuepin = \x7b \x7b\x7d ").data =
        some ([], ("var yuepin = \x7b").data, (" \x7b\x7d ").data) ∧
      scanToClose ((" \x7b\x7d ").data) 1 = none ∧
      run ("var yuepin = \x7b \x7b\x7d ").data true = .fatal .unbalanced ∧
      writtenOf (run ("var yuepin = \x7b \x7b\x7d ").data true) = none) := by
  refine ⟨⟨by decide, ?_⟩, ⟨by decide, by decide, ?_⟩⟩
  · exact (c7_fatal_no_write ("hello").data true).1 (by decide)
  · exact (c7_fatal_no_write ("var yuepin = \x7b \x7b\x7d ").data true).2
      [] ("var yuepin = \x7b").data (" \x7b\x7d ").data (by decide) (by decide)

/-! ## Claim C5: the record-line pattern -/

theorem matchTail_eq {r inner comma : Txt}
    (h : matchTail r = some (inner, comma)) :
    r = inner ++ '"' :: comma ∧ (comma = [] ∨ comma = [',']) := by
  cases hr : r.reverse with
  | nil => simp [matchTail, hr] at h
  | cons c rev =>
    have hrr : r = (c :: rev).reverse := by rw [← hr, List.reverse_reverse]
    cases rev with
    | nil =>
      simp only [matchTail, hr] at h
      by_cases hc : c = '"'
      · rw [if_pos hc] at h
        simp only [Option.some.injEq, Prod.mk.injEq] at h
        obtain ⟨h1, h2⟩ := h
        subst h1
        subst h2
        exact ⟨by rw [hrr, hc]; rfl, Or.inl rfl⟩
      · rw [if_neg hc] at h
        simp at h
    | cons d rev2 =>
      simp only [matchTail, hr] at h
      by_cases hc : c = '"'
      · rw [if_pos hc] at h
        simp only [Option.some.injEq, Prod.mk.injEq] at h
        obtain ⟨h1, h2⟩ := h
        subst h1
        subst h2
        refine ⟨?_, Or.inl rfl⟩
        rw [hrr, hc]
        simp
      · rw [if_neg hc] at h
        by_cases hcd : c = ',' ∧ d = '"'
        · rw [if_pos hcd] at h
          simp only [Option.some.injEq, Prod.mk.injEq] at h
          obtain ⟨h1, h2⟩ := h
          subst h1
          subst h2
          refine ⟨?_, Or.inr rfl⟩
          rw [hrr, hcd.1, hcd.2]
          simp
        · rw [if_neg hcd] at h
          simp at h

theorem matchLine_shape {line kp inner comma : Txt}
    (h : matchLine line = some (kp, inner, comma)) : SpecLineShape line := by
  cases h1 : expectChar '"' (line.dropWhile isSpace) with
  | none => simp [matchLine, h1] at h
  | some r2 =>
    by_cases hk : (r2.takeWhile (fun c => !(c == '"'))).isEmpty
    · simp [matchLine, h1, hk] at h
    · cases h2 : expectChar '"' (r2.dropWhile (fun c => !(c == '"'))) with
      | none => simp [matchLine, h1, hk, h2] at h
      | some r3 =>
        cases h3 : expectChar ':' (r3.dropWhile isSpace) with
        | none => simp [matchLine, h1, hk, h2, h3] at h
        | some r4 =>
          cases h4 : expectChar '"' (r4.dropWhile isSpace) with
          | none => simp [matchLine, h1, hk, h2, h3, h4] at h
          | some r5 =>
            cases h5 : matchTail r5 with
            | none => simp [matchLine, h1, hk, h2, h3, h4, h5] at h
            | some ic =>
              obtain ⟨inn, com⟩ := ic
              simp only [matchLine, h1, hk, h2, h3, h4, h5,
                Bool.false_eq_true, if_false, Option.some.injEq,
                Prod.mk.injEq] at h
              obtain ⟨-, hin, hcm⟩ := h
              subst hin
              subst hcm
              obtain ⟨hr5, hcomma⟩ := matchTail_eq h5
              refine ⟨line.takeWhile isSpace,
                r2.takeWhile (fun c => !(c == '"')),
                r3.takeWhile isSpace, r4.takeWhile isSpace, inn, com,
                ?_, ?_, ?_, ?_, ?_, hcomma, ?_⟩
              · intro c hc; exact List.mem_takeWhile_imp hc
              · intro c hc; exact List.mem_takeWhile_imp hc
              · intro c hc; exact List.mem_takeWhile_imp hc
              · intro hkey
                exact hk (by rw [hkey]; rfl)
              · intro c hc
                have := List.mem_takeWhile_imp hc
                simpa using this
              · have e1 : line =
                    line.takeWhile isSpace ++ line.dropWhile isSpace :=
                  (List.takeWhile_append_dropWhile isSpace line).symm
                have e2 := expectChar_eq h1
                have e3 : r2 = r2.takeWhile (fun c => !(c == '"')) ++
                    r2.dropWhile (fun c => !(c == '"')) :=
                  (List.takeWhile_append_dropWhile _ r2).symm
                have e4 := expectChar_eq h2
                have e5 : r3 = r3.takeWhile isSpace ++ r3.dropWhile isSpace :=
                  (List.takeWhile_append_dropWhile isSpace r3).symm
                have e6 := expectChar_eq h3
                have e7 : r4 = r4.takeWhile isSpace ++ r4.dropWhile isSpace :=
                  (List.takeWhile_append_dropWhile isSpace r4).symm
                have e8 := expectChar_eq h4
                conv_lhs => rw [e1, e2, e3, e4, e5, e6, e7, e8, hr5]
                simp

theorem shape_has_quote {line : Txt} (h : SpecLineShape line) : '"' ∈ line := by
  obtain ⟨ws1, key, ws2, ws3, v, comma, -, -, -, -, -, -, hdec⟩ := h
  rw [hdec]
  simp

/-- C5: a line of the object body is transformed only when, after optional
leading whitespace, it is exactly a quoted key, a colon, a quoted value and
an optional trailing comma with nothing else on the line; a line not of that
shape is reproduced verbatim with changed = false. -/
theorem c5_nonmatching_verbatim (line : Txt) (h : ¬ SpecLineShape line) :
    processLine line = (line, false) := by
  cases hm : matchLine line with
  | none => simp [processLine, hm]
  | some x =>
    obtain ⟨kp, inner, comma⟩ := x
    exact absurd (matchLine_shape hm) h

/-- Witness for C5 at the closing-brace line of the object body. -/
theorem c5_witness :
    ¬ SpecLineShape ['}'] ∧ processLine ['}'] = (['}'], false) :=
  have hns : ¬ SpecLineShape ['}'] := fun h => by
    simpa using shape_has_quote h
  ⟨hns, c5_nonmatching_verbatim ['}'] hns⟩

/-! ## Claim C9: dry-run mode -/

/-- C9: a run without the fix flag never writes the file; it reports
"No changes necessary" exactly when zero records changed, and otherwise the
count of would-be changes. -/
theorem c9_dry_run (text : Txt) :
    writtenOf (run text false) = none ∧
    ∀ pre obj suf, split_js_object text = .ok (pre, obj, suf) →
      ((run text false = .done .noChanges none ↔ changedCount obj = 0) ∧
       (changedCount obj ≠ 0 →
         run text false =
           .done (.wouldChange (changedCount obj) false) none)) := by
  cases hsp : split_js_object text with
  | error e =>
    constructor
    · simp [run, hsp, writtenOf]
    · intro pre obj suf h
      simp at h
  | ok pos =>
    obtain ⟨pre0, obj0, suf0⟩ := pos
    constructor
    · by_cases hc :
        (((splitlines obj0).map processLine).filter (fun r => r.2)).length = 0
      · simp [run, hsp, hc, writtenOf]
      · simp [run, hsp, hc, writtenOf]
    · intro pre obj suf h
      simp only [Except.ok.injEq, Prod.mk.injEq] at h
      obtain ⟨h1, h2, h3⟩ := h
      subst h1
      subst h2
      subst h3
      by_cases hc :
        (((splitlines obj0).map processLine).filter (fun r => r.2)).length = 0
      · constructor
        · constructor
          · intro _; simpa [changedCount] using hc
          · intro _; simp [run, hsp, hc]
        · intro hcc
          exact absurd (by simpa [changedCount] using hc) hcc
      · constructor
        · constructor
          · intro hr
            simp [run, hsp, hc] at hr
          · intro hcc
            exact absurd (by simpa [changedCount] using hcc) hc
        · intro _
          simp [run, hsp, hc, changedCount]
  
/-- Witness for C9 on a document with nothing to change. -/
theorem c9_witness :
    split_js_object ("var yuepin = \x7b\x7d").data =
      .ok ([], ("var yuepin = \x7b\x7d").data, []) ∧
    writtenOf (run ("var yuepin = \x7b\x7d").data false) = none ∧
    (run ("var yuepin = \x7b\x7d").data false = .done .noChanges none ↔
      changedCount ("var yuepin = \x7b\x7d").data = 0) :=
  ⟨by decide, (c9_dry_run ("var yuepin = \x7b\x7d").data).1,
    (((c9_dry_run ("var yuepin = \x7b\x7d").data).2 []
      ("var yuepin = \x7b\x7d").data [] (by decide)).1)⟩

/-! ## Claim C4: apply mode -/

theorem splitlinesAux_nl (cur t : Txt) :
    splitlinesAux cur ('\n' :: t) = cur.reverse :: splitlinesAux [] t := by
  cases t with
  | nil =>
    simp [splitlinesAux, show isLineBreak '\n' = true from rfl]
  | cons c2 t2 =>
    simp [splitlinesAux, show isLineBreak '\n' = true from rfl,
      show ('\n' : Char) ≠ '\r' from by decide]

theorem splitlinesAux_flat (cur : Txt) (c : Char) (t : Txt)
    (h : isLineBreak c = false) :
    splitlinesAux cur (c :: t) = splitlinesAux (c :: cur) t := by
  cases t with
  | nil => simp [splitlinesAux, h]
  | cons c2 t2 => simp [splitlinesAux, h]

theorem splitlinesAux_ne_nil : ∀ (s cur : Txt), s ≠ [] →
    splitlinesAux cur s ≠ [] := by
  intro s
  induction s with
  | nil => intro cur h; exact absurd rfl h
  | cons c t ih =>
    intro cur _
    by_cases hb : isLineBreak c
    · cases t with
      | nil => simp [splitlinesAux, hb]
      | cons c2 t2 =>
        by_cases hcr : c = '\r' ∧ c2 = '\n'
        · simp [splitlinesAux, hb, hcr,
            show isLineBreak '\r' = true by decide]
        · simp [splitlinesAux, hb, hcr]
    · rw [splitlinesAux_flat cur c t (by simpa using hb)]
      cases t with
      | nil => simp [splitlinesAux]
      | cons c2 t2 => exact ih (c :: cur) (by simp)

theorem joinNL_cons_ne {l : Txt} {ls : List Txt} (h : ls ≠ []) :
    joinNL (l :: ls) = l ++ '\n' :: joinNL ls := by
  cases ls with
  | nil => exact absurd rfl h
  | cons a as => rfl

theorem getLast?_cons_of_ne {c : Char} {t : Txt} (h : t ≠ []) :
    (c :: t).getLast? = t.getLast? := by
  cases t with
  | nil => exact absurd rfl h
  | cons a as => rw [List.getLast?_cons_cons]

theorem joinNL_splitlinesAux : ∀ (s cur : Txt),
    (∀ c ∈ s, isLineBreak c = true → c = '\n') →
    s.getLast? ≠ some '\n' →
    joinNL (splitlinesAux cur s) = cur.reverse ++ s := by
  intro s
  induction s with
  | nil =>
    intro cur _ _
    by_cases hc : cur.isEmpty
    · have : cur = [] := List.isEmpty_iff.mp hc
      subst this
      rfl
    · simp [splitlinesAux, hc, joinNL]
  | cons c t ih =>
    intro cur hb hl
    by_cases hbc : isLineBreak c
    · have hcn : c = '\n' := hb c (by simp) hbc
      subst hcn
      rw [splitlinesAux_nl]
      cases ht : t with
      | nil =>
        subst ht
        exact absurd (by simp) hl
      | cons c2 t2 =>
        subst ht
        have hne := splitlinesAux_ne_nil (c2 :: t2) [] (by simp)
        rw [joinNL_cons_ne hne,
          ih [] (fun x hx hbx => hb x (by simp [hx]) hbx)
            (by rwa [getLast?_cons_of_ne (by simp)] at hl)]
        simp
    · rw [splitlinesAux_flat cur c t (by simpa using hbc)]
      cases ht : t with
      | nil =>
        subst ht
        simp [splitlinesAux, joinNL]
      | cons c2 t2 =>
        subst ht
        rw [ih (c :: cur) (fun x hx hbx => hb x (by simp [hx]) hbx)
          (by rwa [getLast?_cons_of_ne (by simp)] at hl)]
        simp

theorem joinNL_splitlines {s : Txt}
    (hb : ∀ c ∈ s, isLineBreak c = true → c = '\n')
    (hl : s.getLast? ≠ some '\n') :
    joinNL (splitlines s) = s := by
  simpa using joinNL_splitlinesAux s [] hb hl

theorem processLine_unchanged (line : Txt)
    (h : (processLine line).2 = false) : (processLine line).1 = line := by
  cases hm : matchLine line with
  | none => simp [processLine, hm]
  | some x =>
    obtain ⟨kp, inner, comma⟩ := x
    by_cases hc : (process_value inner).2
    · simp [processLine, hm, hc] at h
    · simp [processLine, hm, hc]

theorem process_value_changed {v : Txt} (h : (process_value v).2 = true) :
    2 ≤ (splitComma v).length ∧
    (move_diacritic_to_first_vowel ((splitComma v).getD 1 [])).2 = true ∧
    (process_value v).1 = joinComma ((splitComma v).set 1
      (move_diacritic_to_first_vowel ((splitComma v).getD 1 [])).1) := by
  by_cases hl : (splitComma v).length < 2
  · simp [process_value, hl] at h
  · by_cases hm : (move_diacritic_to_first_vowel ((splitComma v).getD 1 [])).2
    · refine ⟨by omega, hm, ?_⟩
      have hm' := hm
      rw [List.getD_eq_getElem?_getD] at hm'
      simp [process_value, hl, hm', List.getD_eq_getElem?_getD]
    · have hm' :
          ¬ (move_diacritic_to_first_vowel
            ((splitComma v)[1]?.getD [])).2 = true := by
        rw [← List.getD_eq_getElem?_getD]
        exact hm
      simp [process_value, hl, hm'] at h

theorem processLine_changed {line : Txt} (h : (processLine line).2 = true) :
    ∃ kp inner comma, matchLine line = some (kp, inner, comma) ∧
      2 ≤ (splitComma inner).length ∧
      (processLine line).1 = kp ++ '"' :: joinComma ((splitComma inner).set 1
        (move_diacritic_to_first_vowel ((splitComma inner).getD 1 [])).1) ++
        '"' :: comma := by
  cases hm : matchLine line with
  | none => simp [processLine, hm] at h
  | some x =>
    obtain ⟨kp, inner, comma⟩ := x
    by_cases hc : (process_value inner).2
    · obtain ⟨h1, h2, h3⟩ := process_value_changed (by simpa using hc)
      refine ⟨kp, inner, comma, rfl, h1, ?_⟩
      simp [processLine, hm, hc, h3]
    · simp [processLine, hm, hc] at h

/-- C4 counterexample: on a document whose object region uses CRLF line
endings, apply mode rewrites those line endings to a bare newline, so the
written document does not differ from the original only at the changed
token — the claim's expected output (original bytes with only the token
replaced) is not what is written. -/
theorem c4_counterexample :
    run ("var yuepin = \x7b\r\n\"k\": \"x,ḿa\"\r\n\x7d").data true =
      .done (.wouldChange 1 true)
        (some ("var yuepin = \x7b\n\"k\": \"x,má\"\n\x7d").data) ∧
    ("var yuepin = \x7b\n\"k\": \"x,má\"\n\x7d").data ≠
      ("var yuepin = \x7b\r\n\"k\": \"x,má\"\r\n\x7d").data := by
  constructor
  · decide
  · decide

/-- C4 (amended): for a document on which extraction succeeds and whose
object region uses only bare `\n` line separators, the document decomposes
exactly into prefix, newline-joined lines and suffix; lines not counted as
changed are reproduced verbatim; a changed line is rebuilt from its own
groups with only field 1 of the value replaced; and under the fix flag with
a nonzero count the written text is exactly prefix, the processed lines
joined by `\n`, and suffix, with the reported count.  (Documents with other
line separators in the object region have them rewritten to `\n`, as the
counterexample shows.) -/
theorem c4_amended_apply (text pre obj suf : Txt)
    (hsp : split_js_object text = .ok (pre, obj, suf))
    (hnl : ∀ c ∈ obj, isLineBreak c = true → c = '\n') :
    text = pre ++ joinNL (splitlines obj) ++ suf ∧
    (∀ line ∈ splitlines obj, (processLine line).2 = false →
      (processLine line).1 = line) ∧
    (∀ line ∈ splitlines obj, (processLine line).2 = true →
      ∃ kp inner comma, matchLine line = some (kp, inner, comma) ∧
        2 ≤ (splitComma inner).length ∧
        (processLine line).1 = kp ++ '"' ::
          joinComma ((splitComma inner).set 1
            (move_diacritic_to_first_vowel
              ((splitComma inner).getD 1 [])).1) ++ '"' :: comma) ∧
    (changedCount obj ≠ 0 →
      run text true = .done (.wouldChange (changedCount obj) true)
        (some (pre ++
          joinNL (((splitlines obj).map processLine).map (fun r => r.1)) ++
          suf))) ∧
    (changedCount obj = 0 → run text true = .done .noChanges none) := by
  have hlast : obj.getLast? ≠ some '\n' := by
    rw [split_obj_last hsp]
    decide
  have hroundobj : joinNL (splitlines obj) = obj := joinNL_splitlines hnl hlast
  refine ⟨?_, ?_, ?_, ?_, ?_⟩
  · rw [hroundobj]
    exact (split_concat hsp).symm
  · intro line _ h
    exact processLine_unchanged line h
  · intro line _ h
    exact processLine_changed h
  · intro hc
    have hc' :
        (((splitlines obj).map processLine).filter (fun r => r.2)).length
          ≠ 0 := by
      simpa [changedCount] using hc
    simp [run, hsp, hc', changedCount]
  · intro hc
    have hc' :
        (((splitlines obj).map processLine).filter (fun r => r.2)).length
          = 0 := by
      simpa [changedCount] using hc
    simp [run, hsp, hc']

/-- Witness for the amended C4 on a newline-only document with one change. -/
theorem c4_witness :
    split_js_object ("var yuepin = \x7b\n\"k\": \"x,ḿa\"\n\x7d").data =
      .ok ([], ("var yuepin = \x7b\n\"k\": \"x,ḿa\"\n\x7d").data, []) ∧
    (∀ c ∈ ("var yuepin = \x7b\n\"k\": \"x,ḿa\"\n\x7d").data,
      isLineBreak c = true → c = '\n') ∧
    ("var yuepin = \x7b\n\"k\": \"x,ḿa\"\n\x7d").data =
      [] ++ joinNL (splitlines
        ("var yuepin = \x7b\n\"k\": \"x,ḿa\"\n\x7d").data) ++ [] :=
  ⟨by decide, by decide,
    (c4_amended_apply ("var yuepin = \x7b\n\"k\": \"x,ḿa\"\n\x7d").data []
      ("var yuepin = \x7b\n\"k\": \"x,ḿa\"\n\x7d").data [] (by decide)
      (by decide)).1⟩

end FY
